import Mathlib

/-!
Verification of the contrastive-pretraining extension of llm-foundry:
the MPT contrastive model wrapper (`modeling_mpt_embed.py`), the
contrastive-pairs dataloader collator (`dataloader.py`), and the shared
embedding layer (`custom_embedding.py`).

Tensors are embedded as rational-valued nested lists: a vector is
`List ℚ`, a matrix `List (List ℚ)`.  Transcendental primitives of the
tensor framework (float `sqrt`, `log`, `acosh`) are abstracted as
function parameters `ℚ → ℚ`; all structure around them is translated
directly from the Python source.
-/

namespace LLMFoundry

abbrev Vec := List ℚ
abbrev Mat := List Vec

/-- Inner product of two vectors (`torch` row-by-row dot product). -/
def dotProduct (x y : Vec) : ℚ := (List.zipWith (· * ·) x y).sum

/-- Sum of squares of the entries of a vector (`x.pow(2).sum(dim=-1)`). -/
def sumSq (v : Vec) : ℚ := (v.map (fun a => a ^ 2)).sum

/-- Euclidean norm `x.norm(dim=-1, p=2)` of a row, given the framework
square-root primitive. -/
def l2norm (sqrt : ℚ → ℚ) (v : Vec) : ℚ := sqrt (sumSq v)

/-- Model of `F.relu` on a scalar. -/
def relu (x : ℚ) : ℚ := max x 0

section Artanh

/-- The clamp `x.clamp(-1 + 1e-5, 1 - 1e-5)` performed at the start of
`Artanh.forward` (`modeling_mpt_embed.py`).  `torch.clamp(x, lo, hi)` is
`min (max x lo) hi`. -/
def Artanh.clampInput (x : ℚ) : ℚ :=
  min (max x (-1 + 1 / 100000)) (1 - 1 / 100000)

/-- Model of `Artanh.forward`: clamp the input, then return
`0.5 * (log(1 + y) - log(1 - y))` for the clamped value `y`.  The
framework logarithm is the parameter `log`. -/
def Artanh.forward (log : ℚ → ℚ) (x : ℚ) : ℚ :=
  let x := Artanh.clampInput x
  (log (1 + x) - log (1 - x)) * (1 / 2)

/-- Model of `Artanh.backward`: `grad_output / (1 - input ** 2)` where `input` is
the clamped tensor saved by `forward`. -/
def Artanh.backward (grad_output x : ℚ) : ℚ :=
  grad_output / (1 - Artanh.clampInput x ^ 2)

end Artanh

section Collator

/-- The state that `ConcatenatedSequenceCollatorWrapper.__init__` stores
when construction succeeds (`dataloader.py`). -/
structure CollatorState where
  split_token_id : ℤ
  bos_mode : Bool
  deriving DecidableEq, Repr

/-- Model of `ConcatenatedSequenceCollatorWrapper.__init__`: raises `ValueError`
when both token ids are `None` or both are given; otherwise records the
provided token as the split token, with `bos_mode` set exactly when
`bos_token_id` was given. -/
def ConcatenatedSequenceCollatorWrapper.init :
    Option ℤ → Option ℤ → Except String CollatorState
  | none, none =>
      .error "Must supply a value for either eos_token_id or bos_token_id, but got None for both."
  | some _, some _ =>
      .error "Cannot use *both* EOS and BOS tokens for detecting sequence boundaries."
  | none, some bos => .ok ⟨bos, true⟩
  | some eos, none => .ok ⟨eos, false⟩

/-- Running prefix sums with accumulator (`torch.cumsum` along a row). -/
def cumsumFrom (acc : ℤ) : List ℤ → List ℤ
  | [] => []
  | x :: xs => (acc + x) :: cumsumFrom (acc + x) xs

/-- Model of `torch.cumsum(·, dim=1)` applied to one row: inclusive prefix sums. -/
def cumsum (l : List ℤ) : List ℤ := cumsumFrom 0 l

/-- One row of `get_sequence_id_from_batch`: the cumulative count of the
split token, and in eos mode the same right-shifted one position with a
leading zero (`torch.cat([left_zeros, cumulative_sep[:, :-1]], dim=1)`). -/
def get_sequence_id_row (split_token_id : ℤ) (bos_mode : Bool)
    (row : List ℤ) : List ℤ :=
  let is_separator := row.map (fun t => if t = split_token_id then (1 : ℤ) else 0)
  let cumulative_sep := cumsum is_separator
  if bos_mode then cumulative_sep
  else 0 :: cumulative_sep.dropLast

/-- Model of `ConcatenatedSequenceCollatorWrapper.get_sequence_id_from_batch`,
acting row-by-row on the `input_ids` of the batch. -/
def get_sequence_id_from_batch (split_token_id : ℤ) (bos_mode : Bool)
    (input_ids : List (List ℤ)) : List (List ℤ) :=
  input_ids.map (get_sequence_id_row split_token_id bos_mode)

end Collator

section ContrastiveModel

/-- Row selection by a list of indices, as fancy indexing `rows[index]`
does on the leading tensor dimension (indices are in range in every use
below; out-of-range indices are dropped). -/
def selectRows {α : Type} (rows : List α) (idxs : List ℕ) : List α :=
  idxs.filterMap (fun i => rows.get? i)

/-- The row indices selected by the Python slice `[0::step]` on a
leading dimension of size `n` (`format_queries_batch`). -/
def query_indices (n step : ℕ) : List ℕ :=
  (List.range n).filter (fun i => i % step = 0)

/-- The row indices built by `format_passages_batch`:
`pattern = arange(1, step)`, `index = pattern + arange(0, num_blocks*step,
step).unsqueeze(1)` flattened row-major, i.e. for each full block `b`
the indices `b*step + 1, ..., b*step + (step-1)`. -/
def passage_indices (n step : ℕ) : List ℕ :=
  ((List.range (n / step)).map
    (fun b => (List.range (step - 1)).map (fun k => b * step + (k + 1)))).flatten

/-- Model of `format_queries_batch` applied to one leading-dimension object:
select rows `0, step, 2*step, ...`. -/
def format_queries {α : Type} (step : ℕ) (rows : List α) : List α :=
  selectRows rows (query_indices rows.length step)

/-- Model of `format_passages_batch` applied to one leading-dimension object:
select the non-leading rows of every full block of `step` rows. -/
def format_passages {α : Type} (step : ℕ) (rows : List α) : List α :=
  selectRows rows (passage_indices rows.length step)

/-- Model of `ComposerMPTContrastiveLM.forward` reshapes the `[dim1, dim2, dim3]`
batch tensors to `[dim1*dim2, dim3]` before the single backbone pass. -/
def forward_reshape {α : Type} (batch : List (List α)) : List α :=
  batch.flatten

/-- The backbone run of `ComposerMPTContrastiveLM.forward`, modelled as a
per-sequence encoder `f` mapped over the rows of the (reshaped) batch:
each batch row is encoded independently of the others. -/
def run_backbone {α β : Type} (f : α → β) (rows : List α) : List β :=
  rows.map f

/-- Model of `masked_fill(~attention_mask[..., None].bool(), 0.0)` on one
sequence: positions whose mask entry is `0` are zeroed out (the mask is
broadcast over the hidden dimension). -/
def maskedFill (hidden : List Vec) (mask : List ℚ) : List Vec :=
  List.zipWith (fun h m => if m = 0 then h.map (fun _ => (0 : ℚ)) else h) hidden mask

/-- Model of `.sum(dim=1)` over the position dimension of one sequence: the
vector sum of the per-position hidden states (hidden size `d`). -/
def sumPositions (d : ℕ) (hs : List Vec) : Vec :=
  hs.foldr (List.zipWith (· + ·)) (List.replicate d 0)

/-- Masked mean pooling of one sequence
(`_compute_scores` / `poincare_contrastive_loss`):
`masked_fill(...).sum(dim=1) / attention_mask.sum(dim=1)`. -/
def pooledOutput (d : ℕ) (hidden : List Vec) (mask : List ℚ) : Vec :=
  (sumPositions d (maskedFill hidden mask)).map (fun a => a / mask.sum)

/-- Masked mean pooling over a batch of sequences. -/
def pooled (d : ℕ) (hiddens : List (List Vec)) (masks : List (List ℚ)) : Mat :=
  List.zipWith (pooledOutput d) hiddens masks

/-- Model of `F.normalize(v, dim=-1)`: divide a row by `max(‖v‖₂, eps)` with the
torch default `eps = 1e-12`. -/
def F_normalize (sqrt : ℚ → ℚ) (v : Vec) : Vec :=
  v.map (fun a => a / max (l2norm sqrt v) (1 / 1000000000000))

/-- Model of `dist_gather_tensor`: `None` maps to `None`; otherwise concatenate
the per-rank tensors produced by `all_gather` (modelled by `gathered`,
one matrix per rank in rank order) along dimension 0, after overwriting
the slot at the own rank of the caller with the local tensor `t` of the caller. -/
def dist_gather_tensor (W : ℕ) (rank : Fin W) (gathered : Fin W → Mat) :
    Option Mat → Option Mat
  | none => none
  | some t =>
      some (((List.finRange W).map
        (fun r => if r = rank then t else gathered r)).flatten)

/-- Model of `full_contrastive_scores_and_labels`: the matrix
`qp = queries @ passages.t()` of inner products, and the labels
`arange(0, passages.shape[0])`. -/
def full_contrastive_scores_and_labels (queries passages : Mat) :
    Mat × List ℕ :=
  (queries.map (fun q => passages.map (fun p => dotProduct q p)),
   List.range passages.length)

/-- Model of `_compute_scores`: pool queries and passages, L2-normalize, gather
across ranks, form the score matrix and labels, and scale the scores by
`1 / temperature`. -/
def compute_scores (sqrt : ℚ → ℚ) (d step : ℕ) (W : ℕ) (rank : Fin W)
    (gatheredQ gatheredP : Fin W → Mat)
    (hidden : List (List Vec)) (mask : List (List ℚ))
    (temperature : ℚ) : Mat × List ℕ :=
  let q_pooled := (pooled d (format_queries step hidden) (format_queries step mask)).map
    (F_normalize sqrt)
  let p_pooled := (pooled d (format_passages step hidden) (format_passages step mask)).map
    (F_normalize sqrt)
  let all_q := (dist_gather_tensor W rank gatheredQ (some q_pooled)).getD []
  let all_p := (dist_gather_tensor W rank gatheredP (some p_pooled)).getD []
  let scores_labels := full_contrastive_scores_and_labels all_q all_p
  let scale := 1 / temperature
  (scores_labels.1.map (fun row => row.map (fun a => a * scale)), scores_labels.2)

/-- The InfoNCE loss path of `ComposerMPTContrastiveLM`: the configured
cross-entropy `loss_fn` applied to the temperature-scaled score matrix
and labels from `_compute_scores`. -/
def infoNCE_loss (lossFn : Mat → List ℕ → ℚ) (sqrt : ℚ → ℚ)
    (d step : ℕ) (W : ℕ) (rank : Fin W) (gatheredQ gatheredP : Fin W → Mat)
    (hidden : List (List Vec)) (mask : List (List ℚ))
    (temperature : ℚ) : ℚ :=
  let scores_labels :=
    compute_scores sqrt d step W rank gatheredQ gatheredP hidden mask temperature
  lossFn scores_labels.1 scores_labels.2

/-- Model of `_project` with curvature `c = 1`: rescale a row onto the ball of
radius `1 - 1e-3` when its (clamped) norm exceeds that radius. -/
def project (sqrt : ℚ → ℚ) (x : Vec) : Vec :=
  let norm := max (l2norm sqrt x) (1 / 100000)
  let maxnorm : ℚ := 1 - 1 / 1000
  if norm > maxnorm then x.map (fun a => a / norm * maxnorm) else x

/-- Model of `poincare_distance` on one query/passage row pair: project both onto
the ball, then `acosh` of `clamp(1 + 2‖q-p‖² / ((1-‖q‖²)(1-‖p‖²)), min = 1 + 1e-5)`. -/
def poincare_distance_row (sqrt acosh : ℚ → ℚ) (q p : Vec) : ℚ :=
  let hq := project sqrt q
  let hp := project sqrt p
  let z := 2 * l2norm sqrt (List.zipWith (· - ·) hq hp) ^ 2
  let uu := 1 + z / ((1 - l2norm sqrt hq ^ 2) * (1 - l2norm sqrt hp ^ 2))
  acosh (max uu (1 + 1 / 100000))

/-- The label vector of `poincare_contrastive_loss`:
`torch.cat([torch.ones(1), torch.zeros(m - 1)])`. -/
def poincare_labels (m : ℕ) : List ℚ :=
  1 :: List.replicate (m - 1) 0

/-- The elementwise losses of `poincare_contrastive_loss`:
`labels * distances.pow(2) + (1 - labels) * F.relu(margin - distances).pow(2)`. -/
def poincare_losses (margin : ℚ) (labels distances : List ℚ) : List ℚ :=
  List.zipWith
    (fun l dist => l * dist ^ 2 + (1 - l) * relu (margin - dist) ^ 2)
    labels distances

/-- Model of `.mean()` of a vector: sum divided by length. -/
def listMean (l : List ℚ) : ℚ := l.sum / l.length

/-- Model of `ComposerMPTContrastiveLM.poincare_contrastive_loss`: pool queries
and passages, all-gather both, compute per-pair Poincare distances
between the local pooled queries and the gathered passages, build the
one-hot label vector, and return the mean loss with the labels. -/
def poincare_contrastive_loss (sqrt acosh : ℚ → ℚ) (d step : ℕ)
    (W : ℕ) (rank : Fin W) (gatheredQ gatheredP : Fin W → Mat)
    (hidden : List (List Vec)) (mask : List (List ℚ))
    (margin : ℚ) : ℚ × List ℚ :=
  let q_pooled := pooled d (format_queries step hidden) (format_queries step mask)
  let p_pooled := pooled d (format_passages step hidden) (format_passages step mask)
  let _all_q := (dist_gather_tensor W rank gatheredQ (some q_pooled)).getD []
  let all_p := (dist_gather_tensor W rank gatheredP (some p_pooled)).getD []
  let distances := List.zipWith (poincare_distance_row sqrt acosh) q_pooled all_p
  let labels := poincare_labels all_p.length
  let losses := poincare_losses margin labels distances
  (listMean losses, labels)

/-- Model of `ComposerMPTContrastiveLM.loss`: calls `poincare_contrastive_loss`
(with its default `margin = 1.0`) and returns the loss component. -/
def ComposerMPTContrastiveLM.loss (sqrt acosh : ℚ → ℚ) (d step : ℕ)
    (W : ℕ) (rank : Fin W) (gatheredQ gatheredP : Fin W → Mat)
    (hidden : List (List Vec)) (mask : List (List ℚ)) : ℚ :=
  (poincare_contrastive_loss sqrt acosh d step W rank gatheredQ gatheredP
    hidden mask 1).1

end ContrastiveModel

section Embedding

/-- The two kinds of input `SharedEmbedding.forward` receives: an index
tensor (embedding mode) or a hidden-state matrix (unembedding mode). -/
inductive EmbedInput where
  | indices : List ℕ → EmbedInput
  | hidden : Mat → EmbedInput

/-- Model of `nn.Embedding` lookup: row `input[k]` of the weight matrix. -/
def embedding_lookup (weight : Mat) (idxs : List ℕ) : Mat :=
  idxs.map (fun i => weight.getD i [])

/-- Model of `F.linear(input, weight)` = `input @ weight.t()`:
entry `(i, j)` is the inner product of input row `i` with weight row `j`. -/
def F_linear (input weight : Mat) : Mat :=
  input.map (fun row => weight.map (fun wrow => dotProduct row wrow))

/-- Model of `SharedEmbedding.forward`: with `unembed = True` apply
`F.linear(input, self.weight)`, otherwise the ordinary embedding lookup.
The weight matrix is returned alongside the output (it is not written by
either branch). -/
def SharedEmbedding.forward (weight : Mat) (input : EmbedInput)
    (unembed : Bool) : Option Mat × Mat :=
  if unembed then
    (match input with
      | .hidden h => some (F_linear h weight)
      | .indices _ => none, weight)
  else
    (match input with
      | .indices idxs => some (embedding_lookup weight idxs)
      | .hidden _ => none, weight)

end Embedding

/-! ## Helper lemmas -/

lemma cumsumFrom_length (l : List ℤ) : ∀ acc : ℤ, (cumsumFrom acc l).length = l.length := by
  induction l with
  | nil => intro acc; rfl
  | cons x xs ih => intro acc; simp [cumsumFrom, ih]

lemma cumsumFrom_get (l : List ℤ) :
    ∀ (acc : ℤ) (j : ℕ), j < l.length →
      (cumsumFrom acc l).get? j = some (acc + (l.take (j + 1)).sum) := by
  induction l with
  | nil => intro acc j h; simp at h
  | cons x xs ih =>
    intro acc j h
    cases j with
    | zero => simp [cumsumFrom]
    | succ k =>
      have hk : k < xs.length := by simpa using h
      simp only [cumsumFrom, List.get?_cons_succ]
      rw [ih (acc + x) k hk]
      simp [add_assoc]

lemma sum_indicator_eq_count (split : ℤ) (l : List ℤ) :
    (l.map (fun t => if t = split then (1 : ℤ) else 0)).sum = (l.count split : ℤ) := by
  induction l with
  | nil => simp
  | cons x xs ih =>
    simp only [List.map_cons, List.sum_cons, ih, List.count_cons]
    by_cases hx : x = split
    · simp only [hx, if_pos rfl, beq_self_eq_true, if_true]
      push_cast
      ring
    · have hx2 : split ≠ x := Ne.symm hx
      simp [hx, hx2]

/-! ## Claim theorems -/

/-- C8: the custom-gradient inverse hyperbolic tangent is total and
never evaluates a logarithm at a non-positive argument or divides by
zero: `forward` clamps the input into `[-1 + 1e-5, 1 - 1e-5]` and
returns `0.5 * (log(1 + y) - log(1 - y))` for the clamped value `y`,
where both log arguments are strictly positive; `backward` divides by
`1 - y^2`, which is strictly positive. -/
theorem claim_C8_artanh_safe (x : ℚ) :
    (-1 + 1 / 100000 ≤ Artanh.clampInput x ∧ Artanh.clampInput x ≤ 1 - 1 / 100000)
    ∧ 0 < 1 + Artanh.clampInput x
    ∧ 0 < 1 - Artanh.clampInput x
    ∧ (∀ log : ℚ → ℚ, Artanh.forward log x =
        (log (1 + Artanh.clampInput x) - log (1 - Artanh.clampInput x)) * (1 / 2))
    ∧ 0 < 1 - Artanh.clampInput x ^ 2
    ∧ (∀ g : ℚ, Artanh.backward g x = g / (1 - Artanh.clampInput x ^ 2)) := by
  have hlo : -1 + 1 / 100000 ≤ Artanh.clampInput x := by
    unfold Artanh.clampInput
    apply le_min
    · exact le_trans (by norm_num) (le_max_right x (-1 + 1 / 100000))
    · norm_num
  have hhi : Artanh.clampInput x ≤ 1 - 1 / 100000 :=
    min_le_right _ _
  have h1 : 0 < 1 + Artanh.clampInput x := by linarith
  have h2 : 0 < 1 - Artanh.clampInput x := by linarith
  refine ⟨⟨hlo, hhi⟩, h1, h2, fun log => rfl, ?_, fun g => rfl⟩
  nlinarith

/-- C6: constructing `ConcatenatedSequenceCollatorWrapper` raises
`ValueError` exactly when the eos and bos token ids are both absent or
both present; when exactly one is provided, construction succeeds with
that token as the split token and `bos_mode` set exactly when the bos
token was the one provided. -/
theorem claim_C6_collator_init :
    (∀ eos bos : Option ℤ,
      (∃ msg, ConcatenatedSequenceCollatorWrapper.init eos bos = .error msg) ↔
        (eos.isSome ↔ bos.isSome))
    ∧ (∀ e : ℤ, ConcatenatedSequenceCollatorWrapper.init (some e) none = .ok ⟨e, false⟩)
    ∧ (∀ b : ℤ, ConcatenatedSequenceCollatorWrapper.init none (some b) = .ok ⟨b, true⟩) := by
  refine ⟨?_, fun e => rfl, fun b => rfl⟩
  intro eos bos
  cases eos <;> cases bos <;>
    simp [ConcatenatedSequenceCollatorWrapper.init]

/-- C5: the `sequence_id` tensor has the same shape as `input_ids`, is
computed row by row, and in bos mode entry `(i, j)` counts occurrences
of the split token among positions `0..j` of row `i`, while in eos mode
entry `(i, 0)` is `0` and entry `(i, j)` counts occurrences among
positions `0..j-1`. -/
theorem claim_C5_sequence_ids (split : ℤ) (input_ids : List (List ℤ))
    (i j : ℕ) (row : List ℤ)
    (hrow : input_ids.get? i = some row) (hj : j < row.length) :
    (get_sequence_id_from_batch split true input_ids).get? i =
        some (get_sequence_id_row split true row)
    ∧ (get_sequence_id_from_batch split false input_ids).get? i =
        some (get_sequence_id_row split false row)
    ∧ (get_sequence_id_row split true row).length = row.length
    ∧ (get_sequence_id_row split false row).length = row.length
    ∧ (get_sequence_id_row split true row).get? j =
        some ((row.take (j + 1)).count split : ℤ)
    ∧ (get_sequence_id_row split false row).get? j =
        some (if j = 0 then 0 else ((row.take j).count split : ℤ)) := by
  have hlen_cumsum :
      (cumsum (row.map (fun t => if t = split then (1 : ℤ) else 0))).length = row.length := by
    rw [cumsum, cumsumFrom_length, List.length_map]
  have hval : ∀ k : ℕ, k < row.length →
      (cumsum (row.map (fun t => if t = split then (1 : ℤ) else 0))).get? k =
        some ((row.take (k + 1)).count split : ℤ) := by
    intro k hk
    rw [cumsum, cumsumFrom_get _ _ k (by simpa using hk)]
    rw [← List.map_take, sum_indicator_eq_count]
    simp
  have heq_bos : get_sequence_id_row split true row =
      cumsum (row.map (fun t => if t = split then (1 : ℤ) else 0)) := rfl
  have heq_eos : get_sequence_id_row split false row =
      0 :: (cumsum (row.map (fun t => if t = split then (1 : ℤ) else 0))).dropLast := rfl
  refine ⟨?_, ?_, ?_, ?_, ?_, ?_⟩
  · rw [get_sequence_id_from_batch, List.get?_map, hrow]; rfl
  · rw [get_sequence_id_from_batch, List.get?_map, hrow]; rfl
  · rw [heq_bos, hlen_cumsum]
  · rw [heq_eos]
    simp only [List.length_cons, List.length_dropLast, hlen_cumsum]
    omega
  · rw [heq_bos]; exact hval j hj
  · rw [heq_eos]
    cases j with
    | zero => simp
    | succ k =>
      simp only [List.get?_cons_succ]
      rw [List.dropLast_eq_take, List.get?_take (by rw [hlen_cumsum]; omega)]
      rw [hval k (by omega)]
      simp

/-- C5 witness. -/
theorem claim_C5_sequence_ids_witness :
    (get_sequence_id_from_batch 5 true [[5, 1, 5]]).get? 0 =
        some (get_sequence_id_row 5 true [5, 1, 5])
    ∧ (get_sequence_id_from_batch 5 false [[5, 1, 5]]).get? 0 =
        some (get_sequence_id_row 5 false [5, 1, 5])
    ∧ (get_sequence_id_row 5 true [5, 1, 5]).length = ([5, 1, 5] : List ℤ).length
    ∧ (get_sequence_id_row 5 false [5, 1, 5]).length = ([5, 1, 5] : List ℤ).length
    ∧ (get_sequence_id_row 5 true [5, 1, 5]).get? 1 =
        some ((([5, 1, 5] : List ℤ).take 2).count 5 : ℤ)
    ∧ (get_sequence_id_row 5 false [5, 1, 5]).get? 1 =
        some (if 1 = 0 then 0 else ((([5, 1, 5] : List ℤ).take 1).count 5 : ℤ)) :=
  claim_C5_sequence_ids 5 [[5, 1, 5]] 0 1 [5, 1, 5] rfl (by decide)

lemma selectRows_map {α β : Type} (f : α → β) (rows : List α) (idxs : List ℕ) :
    selectRows (rows.map f) idxs = (selectRows rows idxs).map f := by
  unfold selectRows
  induction idxs with
  | nil => rfl
  | cons i is ih =>
    simp only [List.filterMap_cons, List.get?_eq_getElem?, List.getElem?_map]
    simp only [List.get?_eq_getElem?, List.getElem?_map] at ih
    cases h : rows[i]? <;> simp [h, ih]

/-- C2: encoding the reshaped (interleaved) batch with a single backbone
pass and then selecting the query rows `0, step, 2*step, ...` (resp. the
passage rows) yields exactly the embeddings obtained by running the
backbone separately on the selected query rows and on the selected
passage rows — the single-pass code refines the two-pass description,
with the backbone modelled as an arbitrary per-sequence encoder `f`. -/
theorem claim_C2_two_pass_refinement (f : List ℤ → Vec) (step : ℕ)
    (batch : List (List (List ℤ))) :
    format_queries step (run_backbone f (forward_reshape batch)) =
      run_backbone f (format_queries step (forward_reshape batch))
    ∧ format_passages step (run_backbone f (forward_reshape batch)) =
      run_backbone f (format_passages step (forward_reshape batch)) := by
  constructor
  · unfold format_queries run_backbone
    rw [List.length_map, selectRows_map]
  · unfold format_passages run_backbone
    rw [List.length_map, selectRows_map]

/-- C3: `full_contrastive_scores_and_labels` returns the matrix of inner
products between each query row and each passage row, together with the
label vector `0, 1, ..., m-1`, so the positive for query `i` is passage
`i` and every other passage acts as an in-batch negative. -/
theorem claim_C3_scores_and_labels (queries passages : Mat) (i j : ℕ)
    (hi : i < queries.length) (hj : j < passages.length) :
    (full_contrastive_scores_and_labels queries passages).2 =
        List.range passages.length
    ∧ (full_contrastive_scores_and_labels queries passages).2.get? j = some j
    ∧ (full_contrastive_scores_and_labels queries passages).1.length = queries.length
    ∧ ∃ q p, queries.get? i = some q ∧ passages.get? j = some p ∧
        ((full_contrastive_scores_and_labels queries passages).1.get? i).bind
          (fun row => row.get? j) = some (dotProduct q p) := by
  have hq : queries.get? i = some (queries.get ⟨i, hi⟩) := List.get?_eq_get hi
  have hp : passages.get? j = some (passages.get ⟨j, hj⟩) := List.get?_eq_get hj
  refine ⟨rfl, List.get?_range hj, List.length_map _ _,
    queries.get ⟨i, hi⟩, passages.get ⟨j, hj⟩, hq, hp, ?_⟩
  simp only [full_contrastive_scores_and_labels]
  rw [List.get?_map, hq]
  simp only [Option.map_some', Option.some_bind]
  rw [List.get?_map, hp]
  rfl

/-- C3 witness. -/
theorem claim_C3_scores_and_labels_witness :
    (full_contrastive_scores_and_labels [[1, 0], [0, 1]] [[2, 3], [4, 5]]).2 =
        List.range ([[2, 3], [4, 5]] : Mat).length
    ∧ (full_contrastive_scores_and_labels [[1, 0], [0, 1]] [[2, 3], [4, 5]]).2.get? 0 = some 0
    ∧ (full_contrastive_scores_and_labels [[1, 0], [0, 1]] [[2, 3], [4, 5]]).1.length =
        ([[1, 0], [0, 1]] : Mat).length
    ∧ ∃ q p, ([[1, 0], [0, 1]] : Mat).get? 1 = some q
        ∧ ([[2, 3], [4, 5]] : Mat).get? 0 = some p
        ∧ ((full_contrastive_scores_and_labels [[1, 0], [0, 1]] [[2, 3], [4, 5]]).1.get? 1).bind
            (fun row => row.get? 0) = some (dotProduct q p) :=
  claim_C3_scores_and_labels [[1, 0], [0, 1]] [[2, 3], [4, 5]] 1 0 (by decide) (by decide)

/-- C7: `dist_gather_tensor` maps `None` to `None`; on a tensor `t` it
concatenates, in rank order, one per-rank block per rank of the world,
where the block at the own rank of the caller is the local tensor `t`
itself and every other block is the all-gathered tensor of that rank, so
the leading dimension of the result is `W` times that of `t`. -/
theorem claim_C7_dist_gather (W : ℕ) (rank : Fin W) (gathered : Fin W → Mat)
    (t : Mat) (hshape : ∀ r, (gathered r).length = t.length) :
    dist_gather_tensor W rank gathered none = none
    ∧ ∃ slots : List Mat,
        dist_gather_tensor W rank gathered (some t) = some slots.flatten
        ∧ slots.length = W
        ∧ slots.get? rank.val = some t
        ∧ (∀ r : Fin W, r ≠ rank → slots.get? r.val = some (gathered r))
        ∧ slots.flatten.length = W * t.length := by
  refine ⟨rfl, (List.finRange W).map (fun r => if r = rank then t else gathered r),
    rfl, by simp, ?_, ?_, ?_⟩
  · rw [List.get?_eq_getElem?, List.getElem?_map,
      List.getElem?_eq_getElem (by simp)]
    simp
  · intro r hr
    rw [List.get?_eq_getElem?, List.getElem?_map,
      List.getElem?_eq_getElem (by simp)]
    simp [hr]
  · rw [List.length_flatten, List.map_map]
    have hmap : ((List.finRange W).map
        (List.length ∘ fun r => if r = rank then t else gathered r)) =
        List.replicate W t.length := by
      apply List.eq_replicate_iff.mpr
      refine ⟨by simp, ?_⟩
      intro b hb
      simp only [List.mem_map, Function.comp] at hb
      obtain ⟨r, _, hrb⟩ := hb
      by_cases h : r = rank
      · rw [if_pos h] at hrb; omega
      · rw [if_neg h] at hrb; rw [← hrb, hshape r]
    rw [hmap, List.sum_const_nat]

/-- C7 witness. -/
theorem claim_C7_dist_gather_witness :
    dist_gather_tensor 2 0 (fun _ => [[1]]) none = none
    ∧ ∃ slots : List Mat,
        dist_gather_tensor 2 0 (fun _ => [[1]]) (some [[2]]) = some slots.flatten
        ∧ slots.length = 2
        ∧ slots.get? (0 : Fin 2).val = some [[2]]
        ∧ (∀ r : Fin 2, r ≠ 0 → slots.get? r.val = some [[1]])
        ∧ slots.flatten.length = 2 * ([[2]] : Mat).length :=
  claim_C7_dist_gather 2 0 (fun _ => [[1]]) [[2]] (fun _ => rfl)

/-- The spec side of masked mean pooling: the hidden-state vectors at
exactly the positions whose mask entry is `1`. -/
def onesPositions (hidden : List Vec) (mask : List ℚ) : List Vec :=
  (hidden.zip mask).filterMap (fun hm => if hm.2 = 1 then some hm.1 else none)

lemma sumPositions_cons (d : ℕ) (h : Vec) (t : List Vec) :
    sumPositions d (h :: t) = List.zipWith (· + ·) h (sumPositions d t) := rfl

lemma sumPositions_length (d : ℕ) (hs : List Vec)
    (hd : ∀ v ∈ hs, v.length = d) : (sumPositions d hs).length = d := by
  induction hs with
  | nil => simp [sumPositions]
  | cons h t ih =>
    rw [sumPositions_cons, List.length_zipWith,
      hd h (List.mem_cons_self _ _),
      ih (fun v hv => hd v (List.mem_cons_of_mem _ hv)), min_self]

lemma zipWith_add_replicate_zero (v : Vec) (d : ℕ) (hv : v.length = d) :
    List.zipWith (· + ·) (List.replicate d (0 : ℚ)) v = v := by
  induction v generalizing d with
  | nil => simp
  | cons a t ih =>
    cases d with
    | zero => simp at hv
    | succ n =>
      simp only [List.replicate, List.zipWith_cons_cons, zero_add]
      rw [ih n (by simpa using hv)]

lemma maskedFill_mem_length (d : ℕ) (hidden : List Vec) (mask : List ℚ)
    (hd : ∀ v ∈ hidden, v.length = d) :
    ∀ v ∈ maskedFill hidden mask, v.length = d := by
  induction hidden generalizing mask with
  | nil => intro v hv; simp [maskedFill] at hv
  | cons h t ih =>
    cases mask with
    | nil => intro v hv; simp [maskedFill] at hv
    | cons m ms =>
      intro v hv
      rcases List.mem_cons.mp hv with hv | hv
      · subst hv
        by_cases hm : m = 0
        · simp [hm, hd h (List.mem_cons_self _ _)]
        · simp [hm, hd h (List.mem_cons_self _ _)]
      · exact ih ms (fun w hw => hd w (List.mem_cons_of_mem _ hw)) v hv

lemma sum_maskedFill (d : ℕ) (hidden : List Vec) (mask : List ℚ)
    (hd : ∀ v ∈ hidden, v.length = d)
    (h01 : ∀ m ∈ mask, m = 0 ∨ m = 1) :
    sumPositions d (maskedFill hidden mask) =
      sumPositions d (onesPositions hidden mask) := by
  induction hidden generalizing mask with
  | nil => cases mask <;> rfl
  | cons h t ih =>
    cases mask with
    | nil => rfl
    | cons m ms =>
      have hdt : ∀ v ∈ t, v.length = d :=
        fun v hv => hd v (List.mem_cons_of_mem _ hv)
      have h01t : ∀ x ∈ ms, x = 0 ∨ x = 1 :=
        fun x hx => h01 x (List.mem_cons_of_mem _ hx)
      rcases h01 m (List.mem_cons_self _ _) with hm | hm <;> subst hm
      · have hfill : maskedFill (h :: t) (0 :: ms) =
            (h.map (fun _ => (0 : ℚ))) :: maskedFill t ms := by
          simp [maskedFill]
        have hones : onesPositions (h :: t) (0 :: ms) = onesPositions t ms := by
          simp [onesPositions]
        rw [hfill, hones, sumPositions_cons]
        have hmap : h.map (fun _ => (0 : ℚ)) = List.replicate d 0 := by
          rw [List.map_const', hd h (List.mem_cons_self _ _)]
        rw [hmap, zipWith_add_replicate_zero _ d
          (sumPositions_length d (maskedFill t ms) (maskedFill_mem_length d t ms hdt))]
        exact ih ms hdt h01t
      · have hfill : maskedFill (h :: t) (1 :: ms) = h :: maskedFill t ms := by
          simp [maskedFill]
        have hones : onesPositions (h :: t) (1 :: ms) = h :: onesPositions t ms := by
          simp [onesPositions]
        rw [hfill, hones, sumPositions_cons, sumPositions_cons, ih ms hdt h01t]

lemma mask_sum_eq_count (mask : List ℚ) (h01 : ∀ m ∈ mask, m = 0 ∨ m = 1) :
    mask.sum = (mask.count 1 : ℚ) := by
  induction mask with
  | nil => simp
  | cons m ms ih =>
    have hmt : ∀ x ∈ ms, x = 0 ∨ x = 1 :=
      fun x hx => h01 x (List.mem_cons_of_mem _ hx)
    rcases h01 m (List.mem_cons_self _ _) with hm | hm <;> subst hm
    · rw [List.sum_cons, ih hmt, List.count_cons]
      norm_num
    · rw [List.sum_cons, ih hmt, List.count_cons]
      push_cast
      simp [add_comm]

/-- C4: masked mean pooling — for a 0/1 attention mask with at least one
`1`, the pooled embedding equals the sum of the hidden-state vectors at
the positions whose mask entry is `1`, divided by the number of such
positions; masked positions contribute nothing, and the divisor is
nonzero. -/
theorem claim_C4_masked_mean_pooling (d : ℕ) (hidden : List Vec) (mask : List ℚ)
    (hd : ∀ v ∈ hidden, v.length = d)
    (h01 : ∀ m ∈ mask, m = 0 ∨ m = 1)
    (hone : 0 < mask.count 1) :
    mask.sum = (mask.count 1 : ℚ)
    ∧ mask.sum ≠ 0
    ∧ pooledOutput d hidden mask =
        (sumPositions d (onesPositions hidden mask)).map
          (fun a => a / (mask.count 1 : ℚ)) := by
  have hsum := mask_sum_eq_count mask h01
  refine ⟨hsum, ?_, ?_⟩
  · rw [hsum]
    exact_mod_cast Nat.pos_iff_ne_zero.mp hone
  · unfold pooledOutput
    rw [sum_maskedFill d hidden mask hd h01, hsum]

/-- C4 witness. -/
theorem claim_C4_masked_mean_pooling_witness :
    ([1, 0] : List ℚ).sum = (([1, 0] : List ℚ).count 1 : ℚ)
    ∧ ([1, 0] : List ℚ).sum ≠ 0
    ∧ pooledOutput 2 [[1, 2], [3, 4]] [1, 0] =
        (sumPositions 2 (onesPositions [[1, 2], [3, 4]] [1, 0])).map
          (fun a => a / (([1, 0] : List ℚ).count 1 : ℚ)) :=
  claim_C4_masked_mean_pooling 2 [[1, 2], [3, 4]] [1, 0]
    (by decide) (by decide) (by decide)

lemma get?_replicate_lt (a : ℚ) : ∀ (n k : ℕ), k < n →
    (List.replicate n a).get? k = some a := by
  intro n
  induction n with
  | zero => intro k hk; exact absurd hk (Nat.not_lt_zero k)
  | succ m ih =>
    intro k hk
    cases k with
    | zero => rfl
    | succ k2 => exact ih k2 (by omega)

lemma zipWith_replicate_left (g : ℚ → ℚ → ℚ) (a : ℚ) (l : List ℚ) :
    List.zipWith g (List.replicate l.length a) l = l.map (g a) := by
  induction l with
  | nil => rfl
  | cons x xs ih => simp only [List.length_cons, List.replicate,
      List.zipWith_cons_cons, List.map_cons, ih]

/-- C9: `poincare_contrastive_loss` builds a label vector whose length
is the number of gathered passage embeddings, with a single `1` at index
`0` and `0` everywhere else — only the first gathered passage is a
positive — and the returned loss is the mean over all gathered passages
of `label * distance^2 + (1 - label) * relu(margin - distance)^2`. -/
theorem claim_C9_poincare_loss (sqrt acosh : ℚ → ℚ) (d step W : ℕ)
    (rank : Fin W) (gatheredQ gatheredP : Fin W → Mat)
    (hidden : List (List Vec)) (mask : List (List ℚ)) (margin : ℚ)
    (all_p : Mat) (d0 : ℚ) (ds : List ℚ)
    (hp : all_p = (dist_gather_tensor W rank gatheredP
        (some (pooled d (format_passages step hidden)
          (format_passages step mask)))).getD [])
    (hdist : List.zipWith (poincare_distance_row sqrt acosh)
        (pooled d (format_queries step hidden) (format_queries step mask)) all_p
        = d0 :: ds)
    (hlen : all_p.length = ds.length + 1) :
    (poincare_contrastive_loss sqrt acosh d step W rank gatheredQ gatheredP
        hidden mask margin).2.length = all_p.length
    ∧ (poincare_contrastive_loss sqrt acosh d step W rank gatheredQ gatheredP
        hidden mask margin).2.get? 0 = some 1
    ∧ (∀ i, 0 < i → i < all_p.length →
        (poincare_contrastive_loss sqrt acosh d step W rank gatheredQ gatheredP
          hidden mask margin).2.get? i = some 0)
    ∧ (poincare_contrastive_loss sqrt acosh d step W rank gatheredQ gatheredP
        hidden mask margin).1 =
        (d0 ^ 2 + (ds.map (fun x => relu (margin - x) ^ 2)).sum) /
          (all_p.length : ℚ) := by
  have expand : poincare_contrastive_loss sqrt acosh d step W rank gatheredQ gatheredP
      hidden mask margin =
      (listMean (poincare_losses margin
        (poincare_labels ((dist_gather_tensor W rank gatheredP
          (some (pooled d (format_passages step hidden)
            (format_passages step mask)))).getD []).length)
        (List.zipWith (poincare_distance_row sqrt acosh)
          (pooled d (format_queries step hidden) (format_queries step mask))
          ((dist_gather_tensor W rank gatheredP
            (some (pooled d (format_passages step hidden)
              (format_passages step mask)))).getD []))),
       poincare_labels ((dist_gather_tensor W rank gatheredP
         (some (pooled d (format_passages step hidden)
           (format_passages step mask)))).getD []).length) := rfl
  have key : poincare_contrastive_loss sqrt acosh d step W rank gatheredQ gatheredP
      hidden mask margin =
      (listMean (poincare_losses margin (poincare_labels all_p.length) (d0 :: ds)),
       poincare_labels all_p.length) := by
    rw [expand, ← hp, hdist]
  have hm1 : all_p.length - 1 = ds.length := by omega
  refine ⟨?_, ?_, ?_, ?_⟩
  · rw [key]
    simp only [poincare_labels, List.length_cons, List.length_replicate]
    omega
  · rw [key]
    rfl
  · intro i h1 h2
    rw [key]
    cases i with
    | zero => omega
    | succ k =>
      simp only [poincare_labels, List.get?_cons_succ]
      exact get?_replicate_lt _ _ k (by omega)
  · rw [key]
    simp only [poincare_labels, hm1, poincare_losses, List.zipWith_cons_cons]
    rw [zipWith_replicate_left]
    have hg1 : (1 : ℚ) * d0 ^ 2 + (1 - 1) * relu (margin - d0) ^ 2 = d0 ^ 2 := by
      ring
    have hg0 : (fun x => (0 : ℚ) * x ^ 2 + (1 - 0) * relu (margin - x) ^ 2) =
        (fun x => relu (margin - x) ^ 2) := funext fun x => by ring
    rw [hg1, hg0]
    simp only [listMean, List.sum_cons, List.length_cons, List.length_map]
    rw [hlen]

/-- C9 witness. -/
theorem claim_C9_poincare_loss_witness :
    (poincare_contrastive_loss (fun _ => 0) (fun _ => 0) 1 2 1 0
        (fun _ => []) (fun _ => []) [[[1]], [[2]]] [[1], [1]] 1).2.length =
      ([[2]] : Mat).length
    ∧ (poincare_contrastive_loss (fun _ => 0) (fun _ => 0) 1 2 1 0
        (fun _ => []) (fun _ => []) [[[1]], [[2]]] [[1], [1]] 1).2.get? 0 = some 1
    ∧ (∀ i, 0 < i → i < ([[2]] : Mat).length →
        (poincare_contrastive_loss (fun _ => 0) (fun _ => 0) 1 2 1 0
          (fun _ => []) (fun _ => []) [[[1]], [[2]]] [[1], [1]] 1).2.get? i = some 0)
    ∧ (poincare_contrastive_loss (fun _ => 0) (fun _ => 0) 1 2 1 0
        (fun _ => []) (fun _ => []) [[[1]], [[2]]] [[1], [1]] 1).1 =
        ((0 : ℚ) ^ 2 + (([] : List ℚ).map (fun x => relu (1 - x) ^ 2)).sum) /
          (([[2]] : Mat).length : ℚ) :=
  claim_C9_poincare_loss (fun _ => 0) (fun _ => 0) 1 2 1 0
    (fun _ => []) (fun _ => []) [[[1]], [[2]]] [[1], [1]] 1
    [[2]] 0 []
    (by norm_num [dist_gather_tensor, pooled, pooledOutput, maskedFill, sumPositions,
      format_passages, passage_indices, selectRows, List.finRange_succ, List.range_succ,
      Function.comp, List.filterMap_cons, List.zipWith_cons_cons])
    (by norm_num [poincare_distance_row, pooled, pooledOutput, maskedFill, sumPositions,
      format_queries, query_indices, selectRows, List.range_succ,
      List.filterMap_cons, List.zipWith_cons_cons])
    (by norm_num)

/-- C1: for every batch and model output, `ComposerMPTContrastiveLM.loss`
computes either the InfoNCE loss (the configured `loss_fn` on the
temperature-scaled scores and labels of `_compute_scores`) or the
Poincare-ball contrastive loss (`poincare_contrastive_loss`, with its
default margin `1`) over the pooled query and passage embeddings, and
returns that value — the code takes the Poincare branch. -/
theorem claim_C1_loss_dispatch (lossFn : Mat → List ℕ → ℚ) (sqrt acosh : ℚ → ℚ)
    (d step W : ℕ) (rank : Fin W) (gatheredQ gatheredP : Fin W → Mat)
    (hidden : List (List Vec)) (mask : List (List ℚ)) (temperature : ℚ) :
    ComposerMPTContrastiveLM.loss sqrt acosh d step W rank gatheredQ gatheredP
        hidden mask =
      (poincare_contrastive_loss sqrt acosh d step W rank gatheredQ gatheredP
        hidden mask 1).1
    ∨ ComposerMPTContrastiveLM.loss sqrt acosh d step W rank gatheredQ gatheredP
        hidden mask =
      infoNCE_loss lossFn sqrt d step W rank gatheredQ gatheredP hidden mask
        temperature :=
  Or.inl rfl

lemma dotProduct_eq_sum (d : ℕ) : ∀ (v w : Vec), v.length = d → w.length = d →
    dotProduct v w =
      ((List.range d).map (fun k => v.getD k 0 * w.getD k 0)).sum := by
  induction d with
  | zero =>
    intro v w hv hw
    rw [List.length_eq_zero] at hv hw
    subst hv; subst hw; rfl
  | succ n ih =>
    intro v w hv hw
    cases v with
    | nil => simp at hv
    | cons a vt =>
      cases w with
      | nil => simp at hw
      | cons b wt =>
        rw [List.range_succ_eq_map]
        simp only [List.map_cons, List.sum_cons, List.map_map]
        have hcomp : ((fun k => (a :: vt).getD k 0 * (b :: wt).getD k 0) ∘ Nat.succ)
            = fun k => vt.getD k 0 * wt.getD k 0 := by
          funext k
          simp [Function.comp, List.getD_cons_succ]
        rw [hcomp, ← ih vt wt (by simpa using hv) (by simpa using hw)]
        simp [dotProduct, List.getD_cons_zero]

/-- C10: `SharedEmbedding.forward` ties embedding and unembedding to the
same weight matrix: with `unembed = false` it returns the standard
embedding lookup, with `unembed = true` it returns the input multiplied
by the transpose of the same weight matrix (entry `(i, j)` is
`Σ_k input[i][k] * weight[j][k]`), and neither call changes the weight. -/
theorem claim_C10_shared_embedding (weight : Mat) (idxs : List ℕ) (h : Mat)
    (d : ℕ) (hw : ∀ w ∈ weight, w.length = d) (hh : ∀ r ∈ h, r.length = d) :
    SharedEmbedding.forward weight (.indices idxs) false =
        (some (embedding_lookup weight idxs), weight)
    ∧ SharedEmbedding.forward weight (.hidden h) true =
        (some (F_linear h weight), weight)
    ∧ (∀ (i j : ℕ) (hi : i < h.length) (hj : j < weight.length),
        ((F_linear h weight).get? i).bind (fun row => row.get? j) =
          some (((List.range d).map
            (fun k => (h.get ⟨i, hi⟩).getD k 0 *
              (weight.get ⟨j, hj⟩).getD k 0)).sum)) := by
  refine ⟨rfl, rfl, ?_⟩
  intro i j hi hj
  unfold F_linear
  rw [List.get?_map, List.get?_eq_get hi]
  simp only [Option.map_some', Option.some_bind]
  rw [List.get?_map, List.get?_eq_get hj]
  simp only [Option.map_some']
  rw [dotProduct_eq_sum d _ _ (hh _ (h.get_mem i hi)) (hw _ (weight.get_mem j hj))]

/-- C10 witness. -/
theorem claim_C10_shared_embedding_witness :
    SharedEmbedding.forward [[1, 2], [3, 4]] (.indices [0]) false =
        (some (embedding_lookup [[1, 2], [3, 4]] [0]), [[1, 2], [3, 4]])
    ∧ SharedEmbedding.forward [[1, 2], [3, 4]] (.hidden [[5, 6]]) true =
        (some (F_linear [[5, 6]] [[1, 2], [3, 4]]), [[1, 2], [3, 4]])
    ∧ (∀ (i j : ℕ) (hi : i < ([[5, 6]] : Mat).length)
        (hj : j < ([[1, 2], [3, 4]] : Mat).length),
        ((F_linear [[5, 6]] [[1, 2], [3, 4]]).get? i).bind (fun row => row.get? j) =
          some (((List.range 2).map
            (fun k => (([[5, 6]] : Mat).get ⟨i, hi⟩).getD k 0 *
              (([[1, 2], [3, 4]] : Mat).get ⟨j, hj⟩).getD k 0)).sum)) :=
  claim_C10_shared_embedding [[1, 2], [3, 4]] [0] [[5, 6]] 2
    (by decide) (by decide)

end LLMFoundry
